import Mathlib

/-!
Verification development for the NACO_pipeline repository
(naco_pip/NACO_calibration.py).  The Python source is shallowly embedded:
numpy arrays become lists of rationals, numpy reductions become the
corresponding list functions, and external fitting or PCA library calls
(vip_hci) become function parameters of the embedded definitions.
-/

namespace NacoPip

/-- Ascending sort of a list of rationals, modelling numpy sort (np.sort
and sorted arrays).  Over a linear order the sorted permutation is unique,
so any correct sort models np.sort. -/
def npSort (xs : List ℚ) : List ℚ :=
  xs.insertionSort (· ≤ ·)

/-- Arithmetic mean of a list of rationals, modelling np.mean.  On the
empty list numpy yields NaN; this total version returns 0 and is only used
where the source guarantees a nonempty list. -/
def npMean (xs : List ℚ) : ℚ :=
  xs.sum / (xs.length : ℚ)

/-- Median of a list of rationals, modelling np.median: middle element of
the sorted list for odd length, average of the two middle elements for
even length. -/
def npMedian (xs : List ℚ) : ℚ :=
  let s := npSort xs
  if xs.length % 2 = 1 then s.getD (xs.length / 2) 0
  else (s.getD (xs.length / 2 - 1) 0 + s.getD (xs.length / 2) 0) / 2

/-- Index of the first occurrence of the minimum of a list, modelling
np.argmin (numpy returns the first index attaining the minimum). -/
def npArgmin : List ℚ → ℕ
  | [] => 0
  | [_] => 0
  | x :: y :: t =>
    let j := npArgmin (y :: t)
    if (y :: t).getD j 0 < x then j + 1 else 0

theorem npArgmin_lt_length (xs : List ℚ) (h : xs ≠ []) :
    npArgmin xs < xs.length := by
  induction xs with
  | nil => simp at h
  | cons x tail ih =>
    cases tail with
    | nil => simp [npArgmin]
    | cons y t =>
      simp only [npArgmin]
      split
      · have := ih (by simp)
        simpa [Nat.succ_lt_succ_iff] using this
      · simp

theorem npArgmin_le (xs : List ℚ) (i : ℕ) (hi : i < xs.length) :
    xs.getD (npArgmin xs) 0 ≤ xs.getD i 0 := by
  induction xs generalizing i with
  | nil => simp at hi
  | cons x tail ih =>
    cases tail with
    | nil =>
      have : i = 0 := by simpa using Nat.lt_one_iff.mp (by simpa using hi)
      subst this
      simp [npArgmin]
    | cons y t =>
      simp only [npArgmin]
      split
      · rename_i hlt
        cases i with
        | zero => simpa using le_of_lt hlt
        | succ k =>
          have hk : k < (y :: t).length := by simpa using hi
          simpa using ih k hk
      · rename_i hge
        push_neg at hge
        cases i with
        | zero => simp
        | succ k =>
          have hk : k < (y :: t).length := by simpa using hi
          have := ih k hk
          simpa using le_trans hge this

/-- Python runtime values relevant to the comparison made inside
find_nearest: the builtin callable named type, and string literals.  The
source compares the builtin itself (not the constraint parameter) to the
strings ceil and floor. -/
inductive PyVal where
  | builtinType : PyVal
  | str : String → PyVal
deriving DecidableEq

/-- Python equality test between the embedded runtime values. -/
def pyEq (a b : PyVal) : Bool := a = b

/-- Embedding of find_nearest from NACO_calibration.py (index output).
The source computes idx as the argmin of the absolute differences, then
tests the builtin name type against the strings ceil and floor (instead
of the constraint parameter), so the adjustment branches are dead code. -/
def find_nearest (array : List ℚ) (value : ℚ) (constraint : Option String) : ℕ :=
  let idx := npArgmin (array.map fun a => |a - value|)
  if pyEq PyVal.builtinType (PyVal.str "ceil")
      && decide (array.getD idx 0 - value < 0) then idx + 1
  else if pyEq PyVal.builtinType (PyVal.str "floor")
      && decide (value - array.getD idx 0 < 0) then idx - 1
  else idx

/-- Embedding of find_nearest with output equal to value: the source then
returns array[idx]. -/
def find_nearest_value (array : List ℚ) (value : ℚ) (constraint : Option String) : ℚ :=
  array.getD (find_nearest array value constraint) 0

theorem find_nearest_eq_argmin (array : List ℚ) (value : ℚ) (c : Option String) :
    find_nearest array value c = npArgmin (array.map fun a => |a - value|) := by
  simp [find_nearest, pyEq]

theorem getD_map_absdiff (l : List ℚ) (v : ℚ) (j : ℕ) (hj : j < l.length) :
    (l.map fun a => |a - v|).getD j 0 = |l.getD j 0 - v| := by
  simp [List.getD_eq_getElem?_getD, List.getElem?_map,
    List.getElem?_eq_getElem hj]

/-- C10: find_nearest returns the same result whatever the constraint
argument is, namely the index of the first element minimizing the absolute
difference to the target (respectively that element, for the value
output); the ceil and floor adjustment branches compare the builtin name
type to the strings and can never execute. -/
theorem find_nearest_constraint_dead (array : List ℚ) (value : ℚ)
    (c₁ c₂ : Option String) :
    find_nearest array value c₁ = find_nearest array value c₂ ∧
    find_nearest_value array value c₁ = find_nearest_value array value c₂ ∧
    find_nearest array value c₁ = npArgmin (array.map fun a => |a - value|) ∧
    (∀ i, i < array.length →
      |array.getD (find_nearest array value c₁) 0 - value| ≤
        |array.getD i 0 - value|) := by
  refine ⟨by simp [find_nearest, pyEq], by simp [find_nearest_value,
    find_nearest, pyEq], find_nearest_eq_argmin array value c₁, ?_⟩
  intro i hi
  have hlen : (array.map fun a => |a - value|).length = array.length := by
    simp
  have hne : (array.map fun a => |a - value|) ≠ [] := by
    intro h
    rw [h] at hlen
    simp at hlen
    omega
  have hj : npArgmin (array.map fun a => |a - value|) < array.length := by
    have := npArgmin_lt_length (array.map fun a => |a - value|) hne
    omega
  have hle := npArgmin_le (array.map fun a => |a - value|) i (by omega)
  rw [getD_map_absdiff array value _ hj, getD_map_absdiff array value i hi]
    at hle
  rw [find_nearest_eq_argmin]
  exact hle

/-- Witness for C10 at the array [3, 1, 2] and target 0: all three
constraint settings return index 1, and the hypothesis i < length is
discharged at i = 0. -/
theorem find_nearest_constraint_dead_witness :
    find_nearest [3, 1, 2] 0 none = find_nearest [3, 1, 2] 0 (some "ceil") ∧
    |([(3 : ℚ), 1, 2].getD (find_nearest [3, 1, 2] 0 none) 0 - 0)| ≤
      |([(3 : ℚ), 1, 2].getD 0 0 - 0)| := by
  obtain ⟨h1, h2, h3, h4⟩ :=
    find_nearest_constraint_dead [3, 1, 2] 0 none (some "ceil")
  exact ⟨h1, h4 0 (by decide)⟩

/-- Value of final_sz_ori in raw_dataset.get_final_sz: the minimum of the
four quantities 2*d-1 (d the distances from the AGPM position to the frame
edges), twice the shadow radius, and the optional caller cap.  The two
match branches mirror the if final_sz is None branches of the source. -/
def finalSzOri (agpmY agpmX comSz shadowR : ℤ) (cap : Option ℤ) : ℤ :=
  match cap with
  | none => min (2*agpmY - 1) (min (2*agpmX - 1)
      (min (2*(comSz - agpmY) - 1) (min (2*(comSz - agpmX) - 1) (2*shadowR))))
  | some c => min (2*agpmY - 1) (min (2*agpmX - 1)
      (min (2*(comSz - agpmY) - 1) (min (2*(comSz - agpmX) - 1)
        (min (2*shadowR) c))))

/-- Embedding of raw_dataset.get_final_sz from NACO_calibration.py: the
minimum bound, decremented by one if even. -/
def get_final_sz (agpmY agpmX comSz shadowR : ℤ) (cap : Option ℤ) : ℤ :=
  if finalSzOri agpmY agpmX comSz shadowR cap % 2 = 0 then
    finalSzOri agpmY agpmX comSz shadowR cap - 1
  else finalSzOri agpmY agpmX comSz shadowR cap

/-- C7: get_final_sz returns an odd integer, at most twice the shadow
radius, at most the caller cap when given, at most each quantity 2*d-1 for
d a distance from the AGPM position to a frame edge, and it is the largest
odd integer satisfying these bounds. -/
theorem get_final_sz_correct (y x n r : ℤ) (cap : Option ℤ) :
    get_final_sz y x n r cap % 2 = 1 ∧
    get_final_sz y x n r cap ≤ 2*r ∧
    (∀ c, cap = some c → get_final_sz y x n r cap ≤ c) ∧
    get_final_sz y x n r cap ≤ 2*y - 1 ∧
    get_final_sz y x n r cap ≤ 2*x - 1 ∧
    get_final_sz y x n r cap ≤ 2*(n - y) - 1 ∧
    get_final_sz y x n r cap ≤ 2*(n - x) - 1 ∧
    (∀ z : ℤ, z % 2 = 1 → z ≤ 2*r → (∀ c, cap = some c → z ≤ c) →
      z ≤ 2*y - 1 → z ≤ 2*x - 1 → z ≤ 2*(n - y) - 1 → z ≤ 2*(n - x) - 1 →
      z ≤ get_final_sz y x n r cap) := by
  cases cap with
  | none =>
    simp only [get_final_sz, finalSzOri]
    split
    · refine ⟨by omega, by omega, by simp, by omega, by omega, by omega,
        by omega, ?_⟩
      intro z hz h1 _ h2 h3 h4 h5
      omega
    · refine ⟨by omega, by omega, by simp, by omega, by omega, by omega,
        by omega, ?_⟩
      intro z hz h1 _ h2 h3 h4 h5
      omega
  | some c =>
    simp only [get_final_sz, finalSzOri]
    split
    · refine ⟨by omega, by omega, ?_, by omega, by omega, by omega,
        by omega, ?_⟩
      · intro c' hc'
        have hcc : c = c' := by injection hc'
        omega
      · intro z hz h1 hc2 h2 h3 h4 h5
        have := hc2 c rfl
        omega
    · refine ⟨by omega, by omega, ?_, by omega, by omega, by omega,
        by omega, ?_⟩
      · intro c' hc'
        have hcc : c = c' := by injection hc'
        omega
      · intro z hz h1 hc2 h2 h3 h4 h5
        have := hc2 c rfl
        omega

/-- Witness for C7 at a concrete input: AGPM at (100, 120) in a 300 pixel
frame with shadow radius 280 and cap 401, where the binding constraint is
2*100-1 = 199; the inner hypotheses of the theorem are discharged
concretely. -/
theorem get_final_sz_correct_witness :
    get_final_sz 100 120 300 280 (some 401) ≤ 401 ∧
    get_final_sz 100 120 300 280 (some 401) % 2 = 1 ∧
    (197 : ℤ) ≤ get_final_sz 100 120 300 280 (some 401) := by
  obtain ⟨hodd, hr, hcap, h1, h2, h3, h4, hmax⟩ :=
    get_final_sz_correct 100 120 300 280 (some 401)
  refine ⟨hcap 401 rfl, hodd, ?_⟩
  refine hmax 197 (by decide) (by decide) ?_ (by decide) (by decide)
    (by decide) (by decide)
  intro c hc
  have hcc : (401 : ℤ) = c := by injection hc
  omega

/-- Minimum of a list of integers, modelling Python min over a nonempty
list; the empty list (where Python raises) is mapped to 0. -/
def listMinZ : List ℤ → ℤ
  | [] => 0
  | x :: xs => xs.foldl min x

/-- Embedding of the science frame-count update in
raw_dataset.first_frames_removal: for every cube index zz the source sets
real_ndit_sci[zz] = min(real_ndit_sci[zz] - nfr_rm, min(ndit_sci) - nfr_rm),
and the written cube 3_rmfr keeps exactly that many frames. -/
def updatedNditSci (realNditSci : List ℤ) (nditSciMin nfrRm : ℤ) : List ℤ :=
  realNditSci.map fun r => min (r - nfrRm) (nditSciMin - nfrRm)

/-- Embedding of the sky frame-count update in
raw_dataset.first_frames_removal: every sky cube is set to
min(real_ndit_sky) - nfr_rm, based on the minimum of the actual sky frame
counts, not on the nominal ndit_sky. -/
def updatedNditSky (realNditSky : List ℤ) (nfrRm : ℤ) : List ℤ :=
  realNditSky.map fun _ => listMinZ realNditSky - nfrRm

/-- C1 counterexample: with actual science counts [5, 10], nominal minimum
10 and nfr_rm 2, the retained counts are [3, 8]: not uniform and not equal
to nominal minus nfr_rm; with actual sky counts [6, 6] and nominal sky
count 8, the retained sky counts are [4, 4], not 8 - 2 = 6. -/
theorem first_frames_counts_counterexample :
    updatedNditSci [5, 10] 10 2 = [3, 8] ∧
    (updatedNditSci [5, 10] 10 2).getD 0 0 ≠ 10 - 2 ∧
    (updatedNditSci [5, 10] 10 2).getD 0 0 ≠
      (updatedNditSci [5, 10] 10 2).getD 1 0 ∧
    updatedNditSky [6, 6] 2 = [4, 4] ∧
    (updatedNditSky [6, 6] 2).getD 0 0 ≠ 8 - 2 := by
  decide

/-- C1 amended: the retained sky count is uniformly the minimum of the
actual sky frame counts minus nfr_rm, and when every science cube has at
least the nominal minimum of frames, the retained science count is
uniformly the nominal minimum minus nfr_rm. -/
theorem first_frames_counts_amended (realSci realSky : List ℤ)
    (nditSciMin nfrRm : ℤ) (hsci : ∀ r ∈ realSci, nditSciMin ≤ r) :
    (∀ c ∈ updatedNditSci realSci nditSciMin nfrRm, c = nditSciMin - nfrRm) ∧
    (∀ c ∈ updatedNditSky realSky nfrRm, c = listMinZ realSky - nfrRm) := by
  constructor
  · intro c hc
    simp only [updatedNditSci, List.mem_map] at hc
    obtain ⟨r, hr, rfl⟩ := hc
    have := hsci r hr
    omega
  · intro c hc
    simp only [updatedNditSky, List.mem_map] at hc
    obtain ⟨r, hr, rfl⟩ := hc
    rfl

/-- Witness for the amended C1 at actual science counts [10, 12], nominal
minimum 10, nfr_rm 2 and actual sky counts [8, 9]. -/
theorem first_frames_counts_amended_witness :
    (updatedNditSci [10, 12] 10 2).getD 0 0 = 10 - 2 ∧
    (updatedNditSky [8, 9] 2).getD 0 0 = listMinZ [8, 9] - 2 := by
  obtain ⟨h1, h2⟩ :=
    first_frames_counts_amended [10, 12] [8, 9] 10 2 (by decide)
  exact ⟨h1 ((updatedNditSci [10, 12] 10 2).getD 0 0) (by decide),
    h2 ((updatedNditSky [8, 9] 2).getD 0 0) (by decide)⟩

/-- Embedding of the science trimming and flux rescaling loop of
raw_dataset.first_frames_removal: the written cube has cnt frames, and
frame dd = nfr_rm + k of the input is multiplied by
np.median(tmp_fluxes[sc]) / tmp_fluxes[sc, dd], where tmp_fluxes[sc] holds
the annular fluxes of all measured frames of cube sc, indices 0 to
min_ndit_sci - 1.  Frames are flattened pixel lists. -/
def sciCubeRescaled (cube : List (List ℚ)) (fluxes : List ℚ)
    (nfrRm cnt : ℕ) : List (List ℚ) :=
  (List.range cnt).map fun k =>
    (cube.getD (nfrRm + k) []).map fun px =>
      px * npMedian fluxes / fluxes.getD (nfrRm + k) 0

/-- Variant of the rescaling following the words of claim C4, where the
median is taken over the retained frames only (flux indices from nfr_rm
on); written for comparison with the source definition. -/
def sciCubeRescaledClaim (cube : List (List ℚ)) (fluxes : List ℚ)
    (nfrRm cnt : ℕ) : List (List ℚ) :=
  (List.range cnt).map fun k =>
    (cube.getD (nfrRm + k) []).map fun px =>
      px * npMedian (fluxes.drop nfrRm) / fluxes.getD (nfrRm + k) 0

/-- C4 counterexample: for a cube of three unit frames with annular fluxes
[100, 1, 2] and nfr_rm = 1, the source scales by the median over all
measured frames (2), giving frames [[2], [1]], while the claim predicts
scaling by the retained-frames median (3/2), giving [[3/2], [3/4]]; in
particular the frame with flux 2 equal to the all-frames median is left
unchanged although its flux differs from the retained-frames median. -/
theorem npMedian_all_measured : npMedian [100, 1, 2] = 2 := by
  decide

theorem npMedian_retained : npMedian [1, 2] = 3/2 := by
  norm_num [npMedian, npSort, List.insertionSort, List.orderedInsert]

theorem sci_rescale_counterexample :
    sciCubeRescaled [[1], [1], [1]] [100, 1, 2] 1 2 = [[2], [1]] ∧
    sciCubeRescaledClaim [[1], [1], [1]] [100, 1, 2] 1 2 =
      [[3/2], [3/4]] ∧
    sciCubeRescaled [[1], [1], [1]] [100, 1, 2] 1 2 ≠
      sciCubeRescaledClaim [[1], [1], [1]] [100, 1, 2] 1 2 := by
  refine ⟨?_, ?_, ?_⟩ <;>
    norm_num [sciCubeRescaled, sciCubeRescaledClaim, List.range_succ,
      npMedian_all_measured, npMedian_retained]

theorem getD_map_range {α : Type} (cnt k : ℕ) (hk : k < cnt)
    (f : ℕ → α) (d : α) : ((List.range cnt).map f).getD k d = f k := by
  simp [List.getD_eq_getElem?_getD, List.getElem?_map,
    List.getElem?_range hk]

/-- C4 amended: each retained frame k of the output is the input frame
nfr_rm + k multiplied by the ratio of the median of the annular fluxes
over all measured frames of that cube to the flux of that frame, so that a
frame whose flux equals the all-measured-frames median is unchanged. -/
theorem sci_rescale_amended (cube : List (List ℚ)) (fluxes : List ℚ)
    (nfrRm cnt k : ℕ) (hk : k < cnt) :
    (sciCubeRescaled cube fluxes nfrRm cnt).getD k [] =
      (cube.getD (nfrRm + k) []).map
        (fun px => px * npMedian fluxes / fluxes.getD (nfrRm + k) 0) ∧
    (fluxes.getD (nfrRm + k) 0 = npMedian fluxes → npMedian fluxes ≠ 0 →
      (sciCubeRescaled cube fluxes nfrRm cnt).getD k [] =
        cube.getD (nfrRm + k) []) := by
  have hmain : (sciCubeRescaled cube fluxes nfrRm cnt).getD k [] =
      (cube.getD (nfrRm + k) []).map
        (fun px => px * npMedian fluxes / fluxes.getD (nfrRm + k) 0) := by
    simp only [sciCubeRescaled]
    exact getD_map_range cnt k hk _ []
  refine ⟨hmain, ?_⟩
  intro hflux hmed
  rw [hmain, hflux]
  have hid : ∀ px ∈ cube.getD (nfrRm + k) [],
      px * npMedian fluxes / npMedian fluxes = px := by
    intro px _
    rw [mul_div_assoc, div_self hmed, mul_one]
  rw [List.map_congr_left hid]
  simp

/-- Witness for the amended C4: with uniform fluxes [2, 2, 2] the median
is 2 and frame 1 is written unchanged. -/
theorem sci_rescale_amended_witness :
    (sciCubeRescaled [[5], [6], [7]] [2, 2, 2] 1 2).getD 0 [] = [6] := by
  have h := (sci_rescale_amended [[5], [6], [7]] [2, 2, 2] 1 2 0
    (by decide)).2 (by decide) (by decide)
  simpa using h

/-- Embedding of tmp_flux_med in raw_dataset.first_frames_removal: the
across-cube median flux per frame index, np.median(tmp_fluxes, axis=0),
for frame indices 0 to min_ndit_sci - 1. -/
def fluxMedSeq (tmpFluxes : List (List ℚ)) (n : ℕ) : List ℚ :=
  (List.range n).map fun ii =>
    npMedian (tmpFluxes.map fun row => row.getD ii 0)

/-- Embedding of the anomaly test of raw_dataset.first_frames_removal:
frame index ii is flagged when tmp_flux_med[ii] > med_flux + 2*std_flux or
tmp_flux_med[ii] < med_flux - 2*std_flux or ii == 0. -/
def badFrame (fluxMed : List ℚ) (medFlux stdFlux : ℚ) (ii : ℕ) : Bool :=
  decide (medFlux + 2*stdFlux < fluxMed.getD ii 0) ||
  decide (fluxMed.getD ii 0 < medFlux - 2*stdFlux) ||
  decide (ii = 0)

/-- Anomaly flag of first_frames_removal assembled from the measured flux
matrix: med_flux is the median of tmp_flux_med and std_flux its standard
deviation; std_flux stays a parameter because the standard deviation is
irrational in general. -/
def sciBad (tmpFluxes : List (List ℚ)) (n : ℕ) (stdFlux : ℚ) : ℕ → Bool :=
  badFrame (fluxMedSeq tmpFluxes n) (npMedian (fluxMedSeq tmpFluxes n)) stdFlux

/-- Embedding of the first_time loop of raw_dataset.first_frames_removal
that sets nfr_rm = min(ii, 10) at the first non-flagged frame index and
never updates it afterwards; none models the case where the loop leaves
nfr_rm unassigned (a NameError later in the source). -/
def nfrRmLoop (bad : ℕ → Bool) (n : ℕ) : Option ℕ :=
  (List.range n).foldl
    (fun acc ii => match acc with
      | some r => some r
      | none => if bad ii then none else some (min ii 10)) none

theorem nfrRmLoop_succ (bad : ℕ → Bool) (n : ℕ) :
    nfrRmLoop bad (n+1) = match nfrRmLoop bad n with
      | some r => some r
      | none => if bad n then none else some (min n 10) := by
  simp [nfrRmLoop, List.range_succ]

theorem nfrRmLoop_none_all_bad (bad : ℕ → Bool) (n : ℕ)
    (h : nfrRmLoop bad n = none) : ∀ j, j < n → bad j = true := by
  induction n with
  | zero => intro j hj; omega
  | succ n ih =>
    intro j hj
    rw [nfrRmLoop_succ] at h
    cases hcase : nfrRmLoop bad n with
    | some r => rw [hcase] at h; simp at h
    | none =>
      rw [hcase] at h
      by_cases hbn : bad n = true
      · rcases Nat.lt_succ_iff_lt_or_eq.mp hj with hj' | hj'
        · exact ih hcase j hj'
        · subst hj'; exact hbn
      · rw [if_neg hbn] at h; cases h

theorem nfrRmLoop_eq_some_iff (bad : ℕ → Bool) (n : ℕ) : ∀ r,
    nfrRmLoop bad n = some r ↔
      ∃ i, i < n ∧ bad i = false ∧ (∀ j, j < i → bad j = true) ∧
        r = min i 10 := by
  induction n with
  | zero => intro r; simp [nfrRmLoop]
  | succ n ih =>
    intro r
    rw [nfrRmLoop_succ]
    cases hcase : nfrRmLoop bad n with
    | some r' =>
      constructor
      · intro h
        have hrr : r' = r := by injection h
        subst hrr
        obtain ⟨i, hi, hb, hall, hr⟩ := (ih r').mp hcase
        exact ⟨i, by omega, hb, hall, hr⟩
      · rintro ⟨i, hi, hb, hall, hr⟩
        by_cases hin : i < n
        · have := (ih r).mpr ⟨i, hin, hb, hall, hr⟩
          rw [hcase] at this
          exact this
        · have hieq : i = n := by omega
          obtain ⟨i', hi', hb', hall', hr'⟩ := (ih r').mp hcase
          have hbad := hall i' (by omega)
          rw [hb'] at hbad
          cases hbad
    | none =>
      constructor
      · intro h
        by_cases hbn : bad n = true
        · rw [if_pos hbn] at h; cases h
        · have hbn' : bad n = false := by simpa using hbn
          rw [if_neg hbn] at h
          have hrmin : min n 10 = r := by injection h
          refine ⟨n, by omega, hbn', ?_, hrmin.symm⟩
          exact nfrRmLoop_none_all_bad bad n hcase
      · rintro ⟨i, hi, hb, hall, hr⟩
        by_cases hin : i < n
        · have := (ih r).mpr ⟨i, hin, hb, hall, hr⟩
          rw [hcase] at this
          cases this
        · have hieq : i = n := by omega
          subst hieq
          rw [if_neg (by simp [hb])]
          rw [hr]

/-- C3: a frame index is flagged anomalous exactly when its across-cube
median flux deviates from the overall median by more than two standard
deviations, with index 0 always flagged; nfr_rm is assigned exactly when a
non-anomalous index below n exists, in which case it equals the first such
index capped at 10, and hence never exceeds 10. -/
theorem first_frames_anomaly_nfr_rm (tmpFluxes : List (List ℚ))
    (stdFlux : ℚ) (n : ℕ) :
    (∀ ii, sciBad tmpFluxes n stdFlux ii = true ↔
      (2*stdFlux < |(fluxMedSeq tmpFluxes n).getD ii 0 -
        npMedian (fluxMedSeq tmpFluxes n)| ∨ ii = 0)) ∧
    (∀ r, nfrRmLoop (sciBad tmpFluxes n stdFlux) n = some r ↔
      ∃ i, i < n ∧ sciBad tmpFluxes n stdFlux i = false ∧
        (∀ j, j < i → sciBad tmpFluxes n stdFlux j = true) ∧
        r = min i 10) ∧
    (∀ r, nfrRmLoop (sciBad tmpFluxes n stdFlux) n = some r → r ≤ 10) := by
  refine ⟨?_, nfrRmLoop_eq_some_iff _ n, ?_⟩
  · intro ii
    simp only [sciBad, badFrame, Bool.or_eq_true, decide_eq_true_eq]
    constructor
    · rintro ((h | h) | h)
      · left; rw [lt_abs]; left; linarith
      · left; rw [lt_abs]; right; linarith
      · right; exact h
    · rintro (h | h)
      · rw [lt_abs] at h
        rcases h with h | h
        · left; left; linarith
        · left; right; linarith
      · right; exact h
  · intro r hr
    obtain ⟨i, _, _, _, hrmin⟩ :=
      (nfrRmLoop_eq_some_iff (sciBad tmpFluxes n stdFlux) n r).mp hr
    omega

/-- Witness for C3: a single science cube with frame fluxes [10, 0, 0] and
std_flux = 1; frame index 0 is flagged, index 1 is clean, and nfr_rm is
assigned min(1, 10) = 1 which is at most 10. -/
theorem first_frames_anomaly_nfr_rm_witness :
    nfrRmLoop (sciBad [[10, 0, 0]] 3 1) 3 = some 1 ∧ (1 : ℕ) ≤ 10 := by
  obtain ⟨hiff, hsome, hle⟩ := first_frames_anomaly_nfr_rm [[10, 0, 0]] 1 3
  have e1 : fluxMedSeq [[10, 0, 0]] 3 = [10, 0, 0] := by
    simp [fluxMedSeq, List.range_succ, npMedian, npSort]
  have e2 : npMedian [10, 0, 0] = 0 := by decide
  have hb0 : sciBad [[10, 0, 0]] 3 1 0 = true := by
    simp [sciBad, badFrame]
  have hb1 : sciBad [[10, 0, 0]] 3 1 1 = false := by
    rw [sciBad, e1, e2]
    norm_num [badFrame]
  have h := (hsome 1).mpr ⟨1, by omega, hb1, ?_, by omega⟩
  · exact ⟨h, hle 1 h⟩
  · intro j hj
    have hj0 : j = 0 := by omega
    subst hj0
    exact hb0

/-- Selection of the pixels of a flattened frame under a boolean mask,
modelling subframe = tmp_tmp_pca[np.where(mask)] in the helper functions
_get_test_diff_flat and _get_test_diff_sci of raw_dataset.dark_subtract. -/
def maskSelect (frame : List ℚ) (mask : List Bool) : List ℚ :=
  (frame.zip mask).filterMap fun pb => if pb.2 then some pb.1 else none

/-- Population variance of a list, the square of np.std; none models the
NaN that numpy produces on an empty selection.  The source then takes the
square root, which preserves definedness, and definedness is all that the
degenerate-mask claim concerns. -/
def npVarOpt (xs : List ℚ) : Option ℚ :=
  if xs.length = 0 then none
  else some ((xs.map fun x => (x - npMean xs)^2).sum / (xs.length : ℚ))

/-- Embedding of the statistic returned by _get_test_diff_flat and
_get_test_diff_sci in raw_dataset.dark_subtract: the standard deviation of
the masked pixels of the PCA residual (the residual itself comes from the
external vip_hci PCA call and is a parameter here).  The source body
contains no raise statement and no emptiness check: it always returns the
statistic, which is NaN (none) whenever the mask selects zero pixels. -/
def testDiffObjective (residual : List ℚ) (mask : List Bool) : Option ℚ :=
  npVarOpt (maskSelect residual mask)

theorem maskSelect_replicate_false (frame : List ℚ) (n : ℕ) :
    maskSelect frame (List.replicate n false) = [] := by
  induction frame generalizing n with
  | nil => simp [maskSelect]
  | cons x xs ih =>
    cases n with
    | zero => simp [maskSelect]
    | succ m =>
      simp only [List.replicate_succ, maskSelect, List.zip_cons_cons,
        List.filterMap_cons]
      simpa [maskSelect] using ih m

/-- C9: the minimization objective of dark_subtract silently evaluates to
NaN (none) exactly when the masked diagnostic region selects zero pixels;
in particular a degenerate all-false mask yields NaN and no error is
raised, contradicting the error-handling requirement of the spec. -/
theorem dark_subtract_empty_mask_nan (residual : List ℚ) (mask : List Bool) :
    (testDiffObjective residual mask = none ↔
      maskSelect residual mask = []) ∧
    (∀ n, testDiffObjective residual (List.replicate n false) = none) := by
  constructor
  · simp [testDiffObjective, npVarOpt, List.length_eq_zero]
  · intro n
    rw [testDiffObjective, maskSelect_replicate_false]
    simp [npVarOpt]

/-- Witness for C9: a two-pixel residual with an all-false mask gives a
NaN objective value. -/
theorem dark_subtract_empty_mask_nan_witness :
    testDiffObjective [1, 2] [false, false] = none := by
  have h := (dark_subtract_empty_mask_nan [1, 2] [false, false]).1.mpr
  exact h (by decide)

/-- Embedding of sci_list_test in the median branch of
raw_dataset.subtract_sky: the source iterates only over
[sci_list[0], sci_list[int(n_sci/2)], sci_list[-1]] (a leftover test
subset, flagged in the source by the comment saying to first test then do
with all of sci_list), not over the full sci_list. -/
def sciListTest (sciList : List String) : List String :=
  [sciList.getD 0 "", sciList.getD (sciList.length / 2) "",
   sciList.getD (sciList.length - 1) ""]

/-- Embedding of the per-science-cube subtraction in the median branch of
raw_dataset.subtract_sky: every frame of the science cube has the
per-sky-cube median frame with the nearest timestamp subtracted, the sky
index being chosen by find_nearest on master_sky_times. -/
def nearestSkySubtract (scienceFrames : List (List ℚ))
    (masterSkies : List (List ℚ)) (masterSkyTimes : List ℚ)
    (scTime : ℚ) : List (List ℚ) :=
  scienceFrames.map fun fr =>
    List.zipWith (fun p q => p - q) fr
      (masterSkies.getD (find_nearest masterSkyTimes scTime none) [])

/-- C8 evaluation at the failing input: with four science cubes the median
branch writes 4_sky_subtr outputs only for cubes 0, 2 and 3, skipping cube
1; for the cubes it does process, the subtracted sky is the median sky
frame nearest in time (here sky index 1, time 10, for a science cube at
time 9). -/
theorem subtract_sky_median_incomplete :
    sciListTest ["c0", "c1", "c2", "c3"] = ["c0", "c2", "c3"] ∧
    "c1" ∉ sciListTest ["c0", "c1", "c2", "c3"] ∧
    nearestSkySubtract [[5]] [[1], [2]] [0, 10] 9 = [[3]] := by
  refine ⟨by decide, by decide, ?_⟩
  norm_num [nearestSkySubtract, find_nearest, npArgmin, pyEq]
  rw [if_neg (by intro h; cases h)]
  norm_num

/-- Detected dust candidate in raw_dataset.subtract_sky: position and
detection SNR from the vip_hci detection table; none models a NaN SNR,
which the source discards first. -/
structure DustCand where
  x : ℚ
  y : ℚ
  snr : Option ℚ
deriving DecidableEq

/-- Embedding of the dust_xy_tmp selection loop of
raw_dataset.subtract_sky: keep candidates with non-NaN SNR, both position
offsets from the frame center larger than 3*fwhm, outside the lower-left
quadrant (y > cy or x > cx), and SNR above the alignment threshold
snr_thr = 10. -/
def dustXYTmp (cands : List DustCand) (cy cx f : ℚ) : List (ℚ × ℚ) :=
  cands.filterMap fun d => match d.snr with
    | none => none
    | some s =>
      if 3*f < |d.y - cy| ∧ 3*f < |d.x - cx| then
        if (cy < d.y ∨ cx < d.x) ∧ 10 < s then some (d.x, d.y) else none
      else none

/-- Embedding of the dust_xy_all selection loop of
raw_dataset.subtract_sky: non-NaN SNR, both offsets larger than 3*fwhm,
and SNR above snr_thr_all = 30 (these features are used for the PCA rank
search). -/
def dustXYAll (cands : List DustCand) (cy cx f : ℚ) : List (ℚ × ℚ) :=
  cands.filterMap fun d => match d.snr with
    | none => none
    | some s =>
      if 3*f < |d.y - cy| ∧ 3*f < |d.x - cx| then
        if 30 < s then some (d.x, d.y) else none
      else none

/-- Circularity rejection of raw_dataset.subtract_sky: candidate index dd
is collected into bad_dust when its fitted fwhm_y/fwhm_x ratio is below
0.8 or above 1.2; the 2-D gaussian fit is external and enters as the
function fit, returning (fwhm_x, fwhm_y). -/
def dustBad (fit : ℕ → ℚ × ℚ) (i : ℕ) : Bool :=
  decide ((fit i).2 / (fit i).1 < (0.8 : ℚ)) ||
  decide ((1.2 : ℚ) < (fit i).2 / (fit i).1)

/-- Embedding of dust_xy in raw_dataset.subtract_sky: the comprehension
keeping the entries of dust_xy_tmp whose index is not in bad_dust. -/
def dust_xy (tmp : List (ℚ × ℚ)) (fit : ℕ → ℚ × ℚ) : List (ℚ × ℚ) :=
  ((List.range tmp.length).filter fun i => !dustBad fit i).map
    fun i => tmp.getD i (0, 0)

/-- C5: every dust feature retained for alignment lies more than 3*fwhm
from the optical center (in each axis, hence in Euclidean distance), lies
outside the lower-left quadrant, has detection SNR above the alignment
threshold 10, and occurs at a candidate index whose fitted fwhm_y/fwhm_x
ratio lies in [0.8, 1.2]; candidates violating the circularity bound are
discarded. -/
theorem subtract_sky_retained_dust (cands : List DustCand) (cy cx f : ℚ)
    (fit : ℕ → ℚ × ℚ) (hf : 0 ≤ f) (p : ℚ × ℚ)
    (hp : p ∈ dust_xy (dustXYTmp cands cy cx f) fit) :
    (3*f)^2 < (p.2 - cy)^2 + (p.1 - cx)^2 ∧
    (cy < p.2 ∨ cx < p.1) ∧
    (∃ d ∈ cands, d.x = p.1 ∧ d.y = p.2 ∧ ∃ s, d.snr = some s ∧ 10 < s) ∧
    (∃ i, i < (dustXYTmp cands cy cx f).length ∧
      (dustXYTmp cands cy cx f).getD i (0, 0) = p ∧
      (0.8 : ℚ) ≤ (fit i).2 / (fit i).1 ∧
      (fit i).2 / (fit i).1 ≤ (1.2 : ℚ)) := by
  simp only [dust_xy, List.mem_map, List.mem_filter, List.mem_range] at hp
  obtain ⟨i, ⟨hilt, hgood⟩, hpi⟩ := hp
  have hmem : p ∈ dustXYTmp cands cy cx f := by
    rw [← hpi]
    rw [List.getD_eq_getElem?_getD, List.getElem?_eq_getElem hilt]
    exact List.getElem_mem hilt
  have hratio : (0.8 : ℚ) ≤ (fit i).2 / (fit i).1 ∧
      (fit i).2 / (fit i).1 ≤ (1.2 : ℚ) := by
    simp only [dustBad, Bool.not_eq_true', Bool.or_eq_false_iff,
      decide_eq_false_iff_not, not_lt] at hgood
    exact ⟨hgood.1, hgood.2⟩
  simp only [dustXYTmp, List.mem_filterMap] at hmem
  obtain ⟨d, hd, hsome⟩ := hmem
  rcases hsnr : d.snr with _ | s
  · rw [hsnr] at hsome; cases hsome
  · rw [hsnr] at hsome
    simp only at hsome
    by_cases hdist : 3*f < |d.y - cy| ∧ 3*f < |d.x - cx|
    · rw [if_pos hdist] at hsome
      by_cases hquad : (cy < d.y ∨ cx < d.x) ∧ 10 < s
      · rw [if_pos hquad] at hsome
        have hpd : (d.x, d.y) = p := by injection hsome
        have hx : d.x = p.1 := by rw [← hpd]
        have hy : d.y = p.2 := by rw [← hpd]
        refine ⟨?_, ?_, ⟨d, hd, hx, hy, s, hsnr, hquad.2⟩, i, hilt, hpi,
          hratio⟩
        · have h3f : 0 ≤ 3*f := by linarith
          have h1 : (3*f)^2 < (d.y - cy)^2 := by
            have := hdist.1
            have habs : (3*f)^2 < |d.y - cy|^2 := by
              have h0 : 3*f < |d.y - cy| := this
              calc (3*f)^2 = (3*f)*(3*f) := by ring
                _ < |d.y - cy| * |d.y - cy| := by
                  apply mul_lt_mul' (le_of_lt h0) h0 h3f
                  exact lt_of_le_of_lt h3f h0
                _ = |d.y - cy|^2 := by ring
            rwa [sq_abs] at habs
          have h2 : (0 : ℚ) ≤ (d.x - cx)^2 := sq_nonneg _
          rw [← hy, ← hx]
          linarith
        · rw [← hy, ← hx]
          exact hquad.1
      · rw [if_neg hquad] at hsome; cases hsome
    · rw [if_neg hdist] at hsome; cases hsome

/-- Witness for C5: a single candidate at (20, 30) with SNR 40 and a
perfectly circular fit is retained and satisfies the invariants at center
(0, 0) and fwhm 1. -/
theorem subtract_sky_retained_dust_witness :
    (3*(1 : ℚ))^2 < ((30 : ℚ) - 0)^2 + ((20 : ℚ) - 0)^2 ∧
    ((0 : ℚ) < 30 ∨ (0 : ℚ) < 20) := by
  have e : dustXYTmp [⟨20, 30, some 40⟩] 0 0 1 = [(20, 30)] := by
    simp only [dustXYTmp, List.filterMap_cons, List.filterMap_nil]
    norm_num
  have ebad : dustBad (fun _ : ℕ => ((1 : ℚ), (1 : ℚ))) 0 = false := by
    norm_num [dustBad]
  have hp : ((20 : ℚ), (30 : ℚ)) ∈
      dust_xy (dustXYTmp [⟨20, 30, some 40⟩] 0 0 1) (fun _ => (1, 1)) := by
    rw [dust_xy, e]
    simp only [List.range_succ, List.mem_map, List.mem_filter]
    exact ⟨0, by norm_num [dustBad], rfl⟩
  obtain ⟨h1, h2, h3, h4⟩ := subtract_sky_retained_dust
    [⟨20, 30, some 40⟩] 0 0 1 (fun _ => (1, 1)) (by norm_num) (20, 30) hp
  exact ⟨h1, h2⟩

/-- Default candidate rank list nnpc_tmp of the PCA branch of
raw_dataset.subtract_sky, used when npc is None. -/
def defaultNnpc : List ℕ := [1, 2, 3, 4, 5, 10, 20, 40, 60]

/-- Embedding of nnpc in raw_dataset.subtract_sky: the candidate ranks
(the default list or the caller-supplied list) restricted to those below
n_sky * new_ndit_sky. -/
def nnpcFiltered (nnpcTmp : List ℕ) (limit : ℕ) : List ℕ :=
  nnpcTmp.filter fun pc => pc < limit

/-- Embedding of test_idx in raw_dataset.subtract_sky: the first, middle
and last science cube indices. -/
def testIdx (nSci : ℕ) : List ℕ := [0, nSci / 2, nSci - 1]

/-- Per-feature aperture standard deviations for one representative cube
and one candidate rank: std[dd] = np.std of the pixels in a circular
aperture of radius 3*fwhm around dust feature dd of the median
rank-subtracted residual.  The PCA subtraction and aperture extraction are
external vip_hci calls, so the per-feature statistic enters as the
function aperStd (cube index, rank, feature index). -/
def featureStds (aperStd : ℕ → ℕ → ℕ → ℚ) (ndustAll fitsIdx rank : ℕ) :
    List ℚ :=
  (List.range ndustAll).map (aperStd fitsIdx rank)

/-- Embedding of hmean_std in raw_dataset.subtract_sky: the mean of the
upper part of the sorted per-feature standard deviations,
np.mean(std_sort[int(ndust_all/2.):]). -/
def hmeanStd (aperStd : ℕ → ℕ → ℕ → ℚ) (ndustAll fitsIdx rank : ℕ) : ℚ :=
  npMean ((npSort (featureStds aperStd ndustAll fitsIdx rank)).drop
    (ndustAll / 2))

/-- Embedding of npc_opt[sc] in raw_dataset.subtract_sky: the candidate
rank with the smallest hmean_std, nnpc[np.argmin(hmean_std)]. -/
def npcOpt (aperStd : ℕ → ℕ → ℕ → ℚ) (ndustAll : ℕ) (nnpc : List ℕ)
    (fitsIdx : ℕ) : ℕ :=
  nnpc.getD (npArgmin (nnpc.map fun rank =>
    hmeanStd aperStd ndustAll fitsIdx rank)) 0

/-- Python int() applied to a rational: truncation toward zero. -/
def intPy (q : ℚ) : ℤ := if 0 ≤ q then ⌊q⌋ else ⌈q⌉

/-- Embedding of the final npc chosen by the PCA branch of
raw_dataset.subtract_sky with npc None or a list:
npc = int(np.median(npc_opt)) over the three representative cubes. -/
def npcChosen (aperStd : ℕ → ℕ → ℕ → ℚ) (ndustAll : ℕ) (nnpcTmp : List ℕ)
    (limit nSci : ℕ) : ℤ :=
  intPy (npMedian ((testIdx nSci).map fun i =>
    ((npcOpt aperStd ndustAll (nnpcFiltered nnpcTmp limit) i : ℕ) : ℚ)))

theorem getD_map_nat_rat (l : List ℕ) (f : ℕ → ℚ) (j : ℕ)
    (hj : j < l.length) : (l.map f).getD j 0 = f (l.getD j 0) := by
  simp [List.getD_eq_getElem?_getD, List.getElem?_map,
    List.getElem?_eq_getElem hj]

/-- C2: the dataset-wide PCA rank is chosen once, from the first, middle
and last science cubes; for each representative the chosen rank is a
candidate rank minimizing the mean of the upper half of the sorted
per-feature aperture standard deviations of the rank-subtracted residual,
and the final rank is the (truncated) median of the three per-cube
optima. -/
theorem subtract_sky_npc_selection (aperStd : ℕ → ℕ → ℕ → ℚ)
    (ndustAll : ℕ) (nnpcTmp : List ℕ) (limit nSci : ℕ)
    (hne : nnpcFiltered nnpcTmp limit ≠ []) :
    testIdx nSci = [0, nSci / 2, nSci - 1] ∧
    (∀ i : ℕ,
      npcOpt aperStd ndustAll (nnpcFiltered nnpcTmp limit) i ∈
        nnpcFiltered nnpcTmp limit ∧
      ∀ rank ∈ nnpcFiltered nnpcTmp limit,
        hmeanStd aperStd ndustAll i
            (npcOpt aperStd ndustAll (nnpcFiltered nnpcTmp limit) i) ≤
          hmeanStd aperStd ndustAll i rank) ∧
    npcChosen aperStd ndustAll nnpcTmp limit nSci =
      intPy (npMedian ((testIdx nSci).map fun i =>
        ((npcOpt aperStd ndustAll (nnpcFiltered nnpcTmp limit) i : ℕ) : ℚ))) ∧
    (∀ i rank, hmeanStd aperStd ndustAll i rank =
      npMean ((npSort ((List.range ndustAll).map (aperStd i rank))).drop
        (ndustAll / 2))) := by
  refine ⟨rfl, ?_, rfl, fun i rank => rfl⟩
  intro i
  set nnpc := nnpcFiltered nnpcTmp limit with hnnpc
  set stats := nnpc.map fun rank => hmeanStd aperStd ndustAll i rank
    with hstats
  have hlen : stats.length = nnpc.length := by simp [hstats]
  have hsne : stats ≠ [] := by
    intro h
    apply hne
    rw [h] at hlen
    simpa [← hnnpc] using (List.length_eq_zero.mp hlen.symm)
  have hj : npArgmin stats < nnpc.length := by
    have := npArgmin_lt_length stats hsne
    omega
  have hoptval : hmeanStd aperStd ndustAll i
      (npcOpt aperStd ndustAll nnpc i) = stats.getD (npArgmin stats) 0 := by
    rw [npcOpt]
    rw [← hstats]
    rw [getD_map_nat_rat nnpc _ _ hj]
  constructor
  · rw [npcOpt, ← hstats, List.getD_eq_getElem nnpc 0 hj]
    exact List.getElem_mem hj
  · intro rank hrank
    obtain ⟨k, hk, hkr⟩ := List.mem_iff_getElem.mp hrank
    have hklt : k < stats.length := by omega
    have := npArgmin_le stats k hklt
    rw [hoptval]
    have hrankval : stats.getD k 0 = hmeanStd aperStd ndustAll i rank := by
      rw [hstats, getD_map_nat_rat nnpc _ k (by omega),
        List.getD_eq_getElem nnpc 0 (by omega), hkr]
    rw [← hrankval]
    exact this

/-- Witness for C2: candidate list [2, 1] with limit 5 and a per-feature
statistic equal to the rank itself; the optimal rank is a member of the
filtered list and its statistic is at most that of rank 2. -/
theorem subtract_sky_npc_selection_witness :
    npcOpt (fun _ rank _ => (rank : ℚ)) 1 (nnpcFiltered [2, 1] 5) 0 ∈
      nnpcFiltered [2, 1] 5 ∧
    hmeanStd (fun _ rank _ => (rank : ℚ)) 1 0
        (npcOpt (fun _ rank _ => (rank : ℚ)) 1 (nnpcFiltered [2, 1] 5) 0) ≤
      hmeanStd (fun _ rank _ => (rank : ℚ)) 1 0 2 := by
  obtain ⟨h1, h2, h3, h4⟩ := subtract_sky_npc_selection
    (fun _ rank _ => (rank : ℚ)) 1 [2, 1] 5 3 (by decide)
  exact ⟨(h2 0).1, (h2 0).2 2 (by decide)⟩

/-- Minimum of a list of rationals (Python min on a nonempty list; 0 on
the empty list). -/
def listMinQ : List ℚ → ℚ
  | [] => 0
  | x :: xs => xs.foldl min x

/-- Maximum of a list of rationals (Python max on a nonempty list; 0 on
the empty list). -/
def listMaxQ : List ℚ → ℚ
  | [] => 0
  | x :: xs => xs.foldl max x

theorem foldl_min_le_acc (xs : List ℚ) (acc : ℚ) :
    xs.foldl min acc ≤ acc := by
  induction xs generalizing acc with
  | nil => exact le_refl _
  | cons x t ih =>
    calc (x :: t).foldl min acc = t.foldl min (min acc x) := rfl
      _ ≤ min acc x := ih (min acc x)
      _ ≤ acc := min_le_left _ _

theorem foldl_min_le_mem (xs : List ℚ) (acc a : ℚ) (h : a ∈ xs) :
    xs.foldl min acc ≤ a := by
  induction xs generalizing acc with
  | nil => simp at h
  | cons x t ih =>
    rcases List.mem_cons.mp h with h | h
    · subst h
      calc (a :: t).foldl min acc = t.foldl min (min acc a) := rfl
        _ ≤ min acc a := foldl_min_le_acc t _
        _ ≤ a := min_le_right _ _
    · exact ih (min acc x) h

theorem listMinQ_le (l : List ℚ) (a : ℚ) (h : a ∈ l) : listMinQ l ≤ a := by
  cases l with
  | nil => simp at h
  | cons x t =>
    rcases List.mem_cons.mp h with h | h
    · subst h
      exact foldl_min_le_acc t a
    · exact foldl_min_le_mem t x a h

theorem le_foldl_max_acc (xs : List ℚ) (acc : ℚ) :
    acc ≤ xs.foldl max acc := by
  induction xs generalizing acc with
  | nil => exact le_refl _
  | cons x t ih =>
    calc acc ≤ max acc x := le_max_left _ _
      _ ≤ t.foldl max (max acc x) := ih (max acc x)
      _ = (x :: t).foldl max acc := rfl

theorem mem_le_foldl_max (xs : List ℚ) (acc a : ℚ) (h : a ∈ xs) :
    a ≤ xs.foldl max acc := by
  induction xs generalizing acc with
  | nil => simp at h
  | cons x t ih =>
    rcases List.mem_cons.mp h with h | h
    · subst h
      calc a ≤ max acc a := le_max_right _ _
        _ ≤ t.foldl max (max acc a) := le_foldl_max_acc t _
        _ = (a :: t).foldl max acc := rfl
    · exact ih (max acc x) h

theorem le_listMaxQ (l : List ℚ) (a : ℚ) (h : a ∈ l) : a ≤ listMaxQ l := by
  cases l with
  | nil => simp at h
  | cons x t =>
    rcases List.mem_cons.mp h with h | h
    · subst h
      exact le_foldl_max_acc t a
    · exact mem_le_foldl_max t x a h

/-- Embedding of the per-feature displacement tables shifts_xy_sci and
shifts_xy_sky of raw_dataset.subtract_sky, shape
[ndust, n_cubes, n_frames, 2]: entry (dd, sc, zz) is
(xy_cube0[dd, 0] - x_tmp, xy_cube0[dd, 1] - y_tmp), where the centroid
(x_tmp, y_tmp) comes from the external 2-D gaussian fit; the displacement
enters as the function shift. -/
def shiftsXY (ndust nCubes nFrames : ℕ)
    (shift : ℕ → ℕ → ℕ → ℚ × ℚ) : List (List (List (ℚ × ℚ))) :=
  (List.range ndust).map fun dd =>
    (List.range nCubes).map fun sc =>
      (List.range nFrames).map fun zz => shift dd sc zz

/-- Embedding of shifts_xy_sci_med and shifts_xy_sky_med of
raw_dataset.subtract_sky: np.median over axis 0 (the feature axis),
giving one (dx, dy) per cube and frame, shape [n_cubes, n_frames, 2];
these are the shifts applied to each frame by frame_shift. -/
def shiftsXYMed (ndust nCubes nFrames : ℕ)
    (shift : ℕ → ℕ → ℕ → ℚ × ℚ) : List (List (ℚ × ℚ)) :=
  (List.range nCubes).map fun sc =>
    (List.range nFrames).map fun zz =>
      (npMedian ((List.range ndust).map fun dd => (shift dd sc zz).1),
       npMedian ((List.range ndust).map fun dd => (shift dd sc zz).2))

theorem npMedian_odd_between (u v : List ℚ) (c : ℚ)
    (hlen : (u ++ v).length % 2 = 0) (h2 : 2 ≤ (u ++ v).length) :
    (∃ a ∈ u ++ v, a ≤ npMedian (u ++ c :: v)) ∧
    (∃ b ∈ u ++ v, npMedian (u ++ c :: v) ≤ b) := by
  set l := u ++ c :: v with hl
  have hllen : l.length = (u ++ v).length + 1 := by
    simp [hl]
    omega
  set k := (u ++ v).length / 2 with hk2
  have hlk : l.length = 2*k + 1 := by omega
  set s := npSort l with hs
  have hslen : s.length = l.length := List.length_insertionSort _ l
  have hkk : k < s.length := by omega
  have hpw : List.Pairwise (· ≤ ·) s := List.sorted_insertionSort _ l
  have hperm : List.Perm s l := List.perm_insertionSort _ l
  have hmono : ∀ (i j : ℕ) (hi : i < s.length) (hj : j < s.length),
      i ≤ j → s.get (Fin.mk i hi) ≤ s.get (Fin.mk j hj) := by
    intro i j hi hj hij
    simp only [List.get_eq_getElem]
    rcases Nat.lt_or_ge i j with h | h
    · exact (List.pairwise_iff_getElem.mp hpw) i j hi hj h
    · have : i = j := by omega
      subst this
      exact le_refl _
  have hmed : npMedian l = s.get (Fin.mk k hkk) := by
    rw [npMedian]
    have hodd : l.length % 2 = 1 := by omega
    rw [if_pos hodd]
    have hdiv : l.length / 2 = k := by omega
    rw [hdiv, ← hs, List.getD_eq_getElem s 0 hkk, List.get_eq_getElem]
  have hcountA : k + 1 ≤ s.countP fun x => decide (x ≤ s.get (Fin.mk k hkk)) := by
    have htlen : (s.take (k+1)).length = k + 1 := by
      simp [List.length_take]
      omega
    have htake : (s.take (k+1)).countP (fun x => decide (x ≤ s.get (Fin.mk k hkk))) =
        k + 1 := by
      rw [List.countP_eq_length.mpr, htlen]
      intro a ha
      obtain ⟨i, hi, hia⟩ := List.mem_iff_getElem.mp ha
      rw [← hia, List.getElem_take]
      simp only [decide_eq_true_eq]
      have hi' : i < k + 1 := by omega
      simpa [List.get_eq_getElem] using hmono i k (by omega) hkk (by omega)
    calc k + 1 = (s.take (k+1)).countP (fun x => decide (x ≤ s.get (Fin.mk k hkk))) :=
          htake.symm
      _ ≤ (s.take (k+1)).countP (fun x => decide (x ≤ s.get (Fin.mk k hkk))) +
          (s.drop (k+1)).countP (fun x => decide (x ≤ s.get (Fin.mk k hkk))) :=
          Nat.le_add_right _ _
      _ = s.countP fun x => decide (x ≤ s.get (Fin.mk k hkk)) := by
          rw [← List.countP_append, List.take_append_drop]
  have hcountB : k + 1 ≤ s.countP fun x => decide (s.get (Fin.mk k hkk) ≤ x) := by
    have hdlen : (s.drop k).length = k + 1 := by
      simp [List.length_drop]
      omega
    have hdrop : (s.drop k).countP (fun x => decide (s.get (Fin.mk k hkk) ≤ x)) =
        k + 1 := by
      rw [List.countP_eq_length.mpr, hdlen]
      intro a ha
      obtain ⟨i, hi, hia⟩ := List.mem_iff_getElem.mp ha
      rw [← hia, List.getElem_drop]
      simp only [decide_eq_true_eq]
      simpa [List.get_eq_getElem] using
        hmono k (k + i) hkk (by rw [hdlen] at hi; omega) (by omega)
    calc k + 1 = (s.drop k).countP (fun x => decide (s.get (Fin.mk k hkk) ≤ x)) :=
          hdrop.symm
      _ ≤ (s.take k).countP (fun x => decide (s.get (Fin.mk k hkk) ≤ x)) +
          (s.drop k).countP (fun x => decide (s.get (Fin.mk k hkk) ≤ x)) :=
          Nat.le_add_left _ _
      _ = s.countP fun x => decide (s.get (Fin.mk k hkk) ≤ x) := by
          rw [← List.countP_append, List.take_append_drop]
  have hk1 : 1 ≤ k := by omega
  have hsplit : ∀ p : ℚ → Bool, l.countP p =
      (u ++ v).countP p + (if p c then 1 else 0) := by
    intro p
    rw [hl, List.countP_append, List.countP_append, List.countP_cons]
    split <;> omega
  have htransfer : ∀ p : ℚ → Bool, s.countP p = l.countP p :=
    fun p => hperm.countP_eq p
  constructor
  · have hpos : 0 < (u ++ v).countP fun x => decide (x ≤ s.get (Fin.mk k hkk)) := by
      have h1 := hcountA
      rw [htransfer, hsplit] at h1
      split at h1 <;> omega
    obtain ⟨a, ha, hpa⟩ := List.countP_pos_iff.mp hpos
    refine ⟨a, ha, ?_⟩
    rw [hmed]
    simpa using hpa
  · have hpos : 0 < (u ++ v).countP fun x => decide (s.get (Fin.mk k hkk) ≤ x) := by
      have h1 := hcountB
      rw [htransfer, hsplit] at h1
      split at h1 <;> omega
    obtain ⟨b, hb, hpb⟩ := List.countP_pos_iff.mp hpos
    refine ⟨b, hb, ?_⟩
    rw [hmed]
    simpa using hpb

theorem range_decomp (n d : ℕ) (m : ℕ) (hm : n = d + 1 + m) :
    List.range n = List.range d ++ d ::
      ((List.range m).map fun j => d + 1 + j) := by
  have h1 : List.range n =
      List.range (d+1) ++ (List.range m).map fun j => (d+1) + j := by
    rw [← List.range_add]
    congr 1
  rw [h1, List.range_succ, List.append_assoc, List.singleton_append]

theorem npMedian_corrupt_range (n d₀ : ℕ) (f fC : ℕ → ℚ)
    (hd : d₀ < n) (hodd : n % 2 = 1) (h3 : 3 ≤ n)
    (hag : ∀ dd, dd ≠ d₀ → fC dd = f dd) :
    listMinQ (((List.range n).filter fun dd => dd ≠ d₀).map f) ≤
      npMedian ((List.range n).map fC) ∧
    npMedian ((List.range n).map fC) ≤
      listMaxQ (((List.range n).filter fun dd => dd ≠ d₀).map f) := by
  have hrange := range_decomp n d₀ (n - d₀ - 1) (by omega)
  set m := n - d₀ - 1 with hm
  set u := (List.range d₀).map f with hu
  set v := (List.range m).map (fun j => f (d₀ + 1 + j)) with hv
  have hmapC : (List.range n).map fC = u ++ fC d₀ :: v := by
    rw [hrange, List.map_append, List.map_cons, List.map_map, hu, hv]
    congr 1
    · apply List.map_congr_left
      intro a ha
      exact hag a (by have := List.mem_range.mp ha; omega)
    · congr 1
      apply List.map_congr_left
      intro a _
      simp only [Function.comp_apply]
      exact hag (d₀ + 1 + a) (by omega)
  have hfilter : ((List.range n).filter fun dd => dd ≠ d₀).map f =
      u ++ v := by
    rw [hrange, List.filter_append, List.filter_cons]
    have hget1 : (List.range d₀).filter (fun dd => dd ≠ d₀) =
        List.range d₀ := by
      apply List.filter_eq_self.mpr
      intro a ha
      have := List.mem_range.mp ha
      simp only [ne_eq, decide_not, Bool.not_eq_true', decide_eq_false_iff_not]
      omega
    have hget2 : ((List.range m).map fun j => d₀ + 1 + j).filter
        (fun dd => dd ≠ d₀) = (List.range m).map fun j => d₀ + 1 + j := by
      apply List.filter_eq_self.mpr
      intro a ha
      obtain ⟨j, _, rfl⟩ := List.mem_map.mp ha
      simp only [ne_eq, decide_not, Bool.not_eq_true', decide_eq_false_iff_not]
      omega
    have hnotd : ¬(decide (d₀ ≠ d₀) = true) := by simp
    rw [hget1, hget2, if_neg hnotd, List.map_append, List.map_map, hu, hv]
    rfl
  have huv : (u ++ v).length = n - 1 := by
    simp [hu, hv]
    omega
  have heven : (u ++ v).length % 2 = 0 := by omega
  have h2len : 2 ≤ (u ++ v).length := by omega
  obtain ⟨⟨a, ha, hale⟩, ⟨b, hb, hble⟩⟩ :=
    npMedian_odd_between u v (fC d₀) heven h2len
  rw [hfilter, hmapC]
  exact ⟨le_trans (listMinQ_le (u ++ v) a ha) hale,
    le_trans hble (le_listMaxQ (u ++ v) b hb)⟩

/-- C6: the per-feature displacement tables have shape
[ndust, n_cubes, n_frames, 2]; the per-frame alignment shifts are the
medians over the feature axis, shape [n_cubes, n_frames, 2]; and for an
odd number of at least three features, corrupting the displacements of one
feature cannot move the reduced shift outside the range of the remaining
(uncorrupted) per-feature displacements, in either component. -/
theorem subtract_sky_shift_reduction (ndust nCubes nFrames : ℕ)
    (shift : ℕ → ℕ → ℕ → ℚ × ℚ) :
    (shiftsXY ndust nCubes nFrames shift).length = ndust ∧
    (∀ tbl ∈ shiftsXY ndust nCubes nFrames shift, tbl.length = nCubes ∧
      ∀ row ∈ tbl, row.length = nFrames) ∧
    (shiftsXYMed ndust nCubes nFrames shift).length = nCubes ∧
    (∀ row ∈ shiftsXYMed ndust nCubes nFrames shift,
      row.length = nFrames) ∧
    (∀ sc zz, sc < nCubes → zz < nFrames →
      ((shiftsXYMed ndust nCubes nFrames shift).getD sc []).getD zz (0, 0) =
        (npMedian ((List.range ndust).map fun dd => (shift dd sc zz).1),
         npMedian ((List.range ndust).map fun dd => (shift dd sc zz).2))) ∧
    (∀ (shiftC : ℕ → ℕ → ℕ → ℚ × ℚ) (d₀ sc zz : ℕ), d₀ < ndust →
      ndust % 2 = 1 → 3 ≤ ndust →
      (∀ dd, dd ≠ d₀ → shiftC dd sc zz = shift dd sc zz) →
      (listMinQ (((List.range ndust).filter fun dd => dd ≠ d₀).map
            fun dd => (shift dd sc zz).1) ≤
          npMedian ((List.range ndust).map fun dd => (shiftC dd sc zz).1) ∧
        npMedian ((List.range ndust).map fun dd => (shiftC dd sc zz).1) ≤
          listMaxQ (((List.range ndust).filter fun dd => dd ≠ d₀).map
            fun dd => (shift dd sc zz).1)) ∧
      (listMinQ (((List.range ndust).filter fun dd => dd ≠ d₀).map
            fun dd => (shift dd sc zz).2) ≤
          npMedian ((List.range ndust).map fun dd => (shiftC dd sc zz).2) ∧
        npMedian ((List.range ndust).map fun dd => (shiftC dd sc zz).2) ≤
          listMaxQ (((List.range ndust).filter fun dd => dd ≠ d₀).map
            fun dd => (shift dd sc zz).2))) := by
  refine ⟨by simp [shiftsXY], ?_, by simp [shiftsXYMed], ?_, ?_, ?_⟩
  · intro tbl htbl
    obtain ⟨dd, _, rfl⟩ := List.mem_map.mp htbl
    refine ⟨by simp, ?_⟩
    intro row hrow
    obtain ⟨sc, _, rfl⟩ := List.mem_map.mp hrow
    simp
  · intro row hrow
    obtain ⟨sc, _, rfl⟩ := List.mem_map.mp hrow
    simp
  · intro sc zz hsc hzz
    rw [shiftsXYMed, getD_map_range nCubes sc hsc _ [],
      getD_map_range nFrames zz hzz _ (0, 0)]
  · intro shiftC d₀ sc zz hd hodd h3 hag
    constructor
    · exact npMedian_corrupt_range ndust d₀
        (fun dd => (shift dd sc zz).1) (fun dd => (shiftC dd sc zz).1)
        hd hodd h3 (fun dd hdd => by simp only []; rw [hag dd hdd])
    · exact npMedian_corrupt_range ndust d₀
        (fun dd => (shift dd sc zz).2) (fun dd => (shiftC dd sc zz).2)
        hd hodd h3 (fun dd hdd => by simp only []; rw [hag dd hdd])

/-- Witness for C6 at three features, one cube and one frame, with the
displacements (0, 0), (1, 0), (2, 0) and the first feature corrupted to
(100, 0): the reduced x-shift stays within [1, 2], the range of the two
uncorrupted features. -/
theorem subtract_sky_shift_reduction_witness :
    listMinQ (((List.range 3).filter fun dd => dd ≠ 0).map
        fun dd => (((dd : ℚ), (0 : ℚ))).1) ≤
      npMedian ((List.range 3).map fun dd =>
        ((if dd = 0 then ((100 : ℚ), (0 : ℚ)) else ((dd : ℚ), 0)).1)) ∧
    npMedian ((List.range 3).map fun dd =>
        ((if dd = 0 then ((100 : ℚ), (0 : ℚ)) else ((dd : ℚ), 0)).1)) ≤
      listMaxQ (((List.range 3).filter fun dd => dd ≠ 0).map
        fun dd => (((dd : ℚ), (0 : ℚ))).1) := by
  obtain ⟨h1, h2, h3, h4, h5, h6⟩ := subtract_sky_shift_reduction 3 1 1
    (fun dd _ _ => ((dd : ℚ), 0))
  have h := h6 (fun dd _ _ => if dd = 0 then ((100 : ℚ), (0 : ℚ))
      else ((dd : ℚ), 0)) 0 0 0
    (by omega) (by decide) (by omega)
    (fun dd hdd => by simp [hdd])
  exact h.1

end NacoPip
